import Mathlib

/-! The server uv-isprime-server: request parsing and connection lifecycle.

A shallow embedding of `2017/async-socket-server/uv-isprime-server.c`.

Conventions of the embedding.

* A byte (`char`) is a natural number; a buffer or C string is a list of bytes.
* `ssize_t` and `int` values are integers; the `uint64_t` accumulator of the
  parse loop is a natural number reduced modulo `2 ^ 64` after every update.
* The loop counter `int i` is a natural number: it never exceeds `nread`,
  and one read delivers fewer than `2 ^ 31` bytes.
* The callbacks act on a `World`: the state of one client handle together
  with what the process has written to its two output streams and counters
  of the allocator calls made on behalf of that handle.
* A call that the process does not survive (a failed `assert`, a read
  outside the allocated block) yields `none`.
* Allocation through `xmalloc` is taken to succeed; its failure ends the
  process before anything else happens.
* libuv and the C library are outside the repository; the few facts the
  callbacks rely on are modelled next to their first use.
-/

namespace UvIsprimeServer

/-! ## Data model -/

/-- The record `peer_state_t`; the send buffer is allocated and never
initialised or read, only `sendbuf_end` is ever assigned. -/
structure peer_state_t where
  sendbuf_end : Int
deriving DecidableEq, Repr

/-- The libuv buffer descriptor `uv_buf_t`: `base` is the memory block the
pointer designates, `len` the length recorded next to it. -/
structure uv_buf_t where
  base : List Nat
  len : Nat
deriving DecidableEq, Repr

/-- Lifecycle of a client handle, as libuv tracks it in the handle flags:
neither closing nor closed, close requested, close completed. -/
inductive ConnState where
  | Active
  | Closing
  | Closed
deriving DecidableEq, Repr

/-- One line written by a `printf` or `fprintf` call of the program. -/
inductive LogLine where
  /-- The line of `fprintf(stderr, "Read error: %s\n", uv_strerror(nread))`. -/
  | readError (code : Int)
  /-- The line of `fprintf(stderr, "Peer connection error: %s\n", uv_strerror(status))`. -/
  | peerConnectionError (status : Int)
  /-- The line written by `report_peer_connected`. -/
  | peerConnected
  /-- The line of `printf("Got %zu bytes\n", nread)`. -/
  | gotBytes (n : Int)
  /-- The line of `printf("Num %" PRIu64 "\n", number)`. -/
  | num (v : Nat)
deriving DecidableEq, Repr

/-- Text of the two lines `on_peer_read` prints on standard output. -/
def LogLine.text : LogLine → Option String
  | .gotBytes n => some ("Got " ++ toString n ++ " bytes\n")
  | .num v => some ("Num " ++ toString v ++ "\n")
  | _ => none

/-- One client handle and the observable effects of the callbacks run for it. -/
structure World where
  /-- closing / closed flags of the `uv_tcp_t` handle -/
  state : ConnState
  /-- the field `client->data` -/
  data : Option peer_state_t
  /-- lines written to standard error -/
  stderr : List LogLine
  /-- lines written to standard output -/
  stdout : List LogLine
  /-- blocks obtained in `on_alloc_buffer` -/
  bufAllocs : Nat
  /-- calls `free(buf->base)` -/
  bufFrees : Nat
  /-- calls `uv_close(client, on_client_closed)` -/
  closeCalls : Nat
  /-- calls `free(client)` -/
  handleFrees : Nat
  /-- calls `free(client->data)` -/
  peerFrees : Nat
deriving DecidableEq, Repr

/-! ## C library and libuv -/

/-- Modelled from the spec: the "standard end-of-stream code" `UV_EOF` of
`uv.h`, which is not part of the source tree; libuv defines it as `-4095`. -/
def UV_EOF : Int := -4095

/-- The C library `isdigit` in the "C" locale: true on `'0'` .. `'9'` only,
so on no byte with the high bit set. -/
def isdigit (c : Nat) : Bool := decide (48 ≤ c) && decide (c ≤ 57)

/-- Modelled from the spec: `uv_close(handle, close_cb)` of libuv ("initiates
an asynchronous close of the transport handle with a completion callback").
The handle becomes closing; the completion callback runs later, from the
loop. -/
def uv_close (w : World) : World :=
  { w with state := .Closing, closeCalls := w.closeCalls + 1 }

/-- Bytes of a string literal, for writing payloads readably. -/
def bytes (s : String) : List Nat := s.toList.map Char.toNat

/-! ## The callbacks -/

/-- The callback `on_alloc_buffer`: a block of `suggested_size` bytes from `xmalloc` and
its length. The fresh block is shown zero-filled; whoever fills it decides
what the read callback sees. -/
def on_alloc_buffer (w : World) (suggested_size : Nat) : World × uv_buf_t :=
  ({ w with bufAllocs := w.bufAllocs + 1 },
   { base := List.replicate suggested_size 0, len := suggested_size })

/-- The callback `on_client_closed`: frees the peer state when the data field is set,
then frees the handle; the handle is gone afterwards. -/
def on_client_closed (w : World) : World :=
  let w1 : World :=
    match w.data with
    | some _ => { w with peerFrees := w.peerFrees + 1 }
    | none => w
  { w1 with handleFrees := w1.handleFrees + 1, state := .Closed }

/-- The `for` loop of `on_peer_read`, from the state `(i, number)`:
`for (int i = 0; i < nread; ++i) { c = base[i]; if (isdigit(c)) number =
number * 10 + (c - '0'); else break; }`. The result is the final
`(number, i)`. One unit of fuel is spent per evaluation of the loop
condition; `none` means the fuel ran out or `base[i]` lies outside the
block. -/
def parse_loop (base : List Nat) (nread : Nat) : Nat → Nat → Nat → Option (Nat × Nat)
  | 0, _, _ => none
  | fuel + 1, i, number =>
    if i < nread then
      match base[i]? with
      | none => none
      | some c =>
        if isdigit c then
          parse_loop base nread fuel (i + 1) ((number * 10 + (c - 48)) % 2 ^ 64)
        else some (number, i)
    else some (number, i)

/-- The parse loop run from `i = 0`, `number = 0`; the condition is
evaluated at most `nread + 1` times. -/
def parse_number (base : List Nat) (nread : Nat) : Option (Nat × Nat) :=
  parse_loop base nread (nread + 1) 0 0

/-- The read-completion callback `on_peer_read`. -/
def on_peer_read (w : World) (nread : Int) (buf : uv_buf_t) : Option World :=
  let body : Option World :=
    if nread < 0 then
      let w1 : World :=
        if nread ≠ UV_EOF then { w with stderr := w.stderr ++ [.readError nread] } else w
      some (uv_close w1)
    else if nread = 0 then
      some w
    else if (buf.len : Int) ≥ nread then
      match parse_number buf.base nread.toNat with
      | none => none
      | some r => some { w with stdout := w.stdout ++ [.gotBytes nread, .num r.1] }
    else none
  body.map fun w2 => { w2 with bufFrees := w2.bufFrees + 1 }

/-- Outcome of one connection-accepted event. -/
inductive Accepted where
  /-- negative status: logged, no handle created -/
  | dropped (stderr : List LogLine)
  /-- a call of `die(...)`: the process exits -/
  | died
  /-- a client handle now exists -/
  | conn (w : World)
deriving DecidableEq, Repr

/-- The callback `on_peer_connected`. The arguments after `status` are the return codes
of `uv_tcp_init`, `uv_accept`, `uv_tcp_getpeername` and `uv_read_start`. -/
def on_peer_connected (status init_rc accept_rc getpeername_rc read_start_rc : Int) :
    Accepted :=
  if status < 0 then .dropped [.peerConnectionError status]
  else if init_rc < 0 then .died
  else
    let client : World :=
      { state := .Active, data := none, stderr := [], stdout := [],
        bufAllocs := 0, bufFrees := 0, closeCalls := 0, handleFrees := 0, peerFrees := 0 }
    if accept_rc = 0 then
      if getpeername_rc < 0 then .died
      else
        let client1 : World := { client with stdout := client.stdout ++ [.peerConnected] }
        let peerstate : peer_state_t := { sendbuf_end := 0 }
        let client2 : World := { client1 with data := some peerstate }
        if read_start_rc < 0 then .died else .conn client2
    else .conn (uv_close client)

/-- What the loop can deliver for a client handle. -/
inductive Event where
  /-- a read: the size the loop suggests to `on_alloc_buffer`, the byte
  count or error code, and the bytes found in the block when
  `on_peer_read` runs -/
  | read (suggested_size : Nat) (nread : Int) (mem : List Nat)
  /-- completion of a close requested earlier -/
  | closeDone

/-- Modelled from the spec: what the libuv loop does with one event. A read
is dispatched only to a handle that is not closing ("no further read events
are dispatched once close has been initiated (the transport guarantees
this)"): a block is allocated by `on_alloc_buffer`, filled, and handed to
`on_peer_read`. The close callback runs only for a handle whose close was
requested and has not completed. An event the loop does not deliver leaves
everything as it is; `none` means a callback the process did not survive. -/
def dispatch (w : World) : Event → Option World
  | .read suggested_size nread mem =>
    if w.state = .Active then
      let r := on_alloc_buffer w suggested_size
      on_peer_read r.1 nread { r.2 with base := (mem ++ r.2.base).take r.2.len }
    else some w
  | .closeDone =>
    if w.state = .Closing then some (on_client_closed w) else some w

/-- A sequence of events offered to the loop one after the other. -/
def run (w : World) : List Event → Option World
  | [] => some w
  | e :: es => (dispatch w e).bind fun w1 => run w1 es

/-- The handle states visited along a run, the starting state first. -/
def lifecycle (w : World) : List Event → Option (List ConnState)
  | [] => some [w.state]
  | e :: es => (dispatch w e).bind fun w1 => (lifecycle w1 es).map fun l => w.state :: l

/-! ## Reference notions used to state the properties -/

/-- The moves of a handle between two consecutive observations: it stays
where it is, or goes from Active to Closing, or from Closing to Closed. -/
def ConnState.mayStepTo : ConnState → ConnState → Bool
  | .Active, .Active => true
  | .Active, .Closing => true
  | .Closing, .Closing => true
  | .Closing, .Closed => true
  | .Closed, .Closed => true
  | _, _ => false

/-- The read event that delivers `payload` in a block of `suggested_size` bytes. -/
def Event.ofPayload (suggested_size : Nat) (payload : List Nat) : Event :=
  .read suggested_size payload.length payload

/-- A read event fits when the byte count does not exceed the size of the
block allocated for it, as for every read the transport performs. -/
def Event.fits : Event → Bool
  | .read suggested_size nread _ => decide (nread ≤ (suggested_size : Int))
  | .closeDone => true

/-- The counters of a handle agree with its state: no close requested while
Active; one close requested and nothing freed while Closing; once Closed,
one close requested, the handle freed once and the peer state freed once if
one is attached, never otherwise. -/
def World.consistent (w : World) : Prop :=
  match w.state with
  | .Active => w.closeCalls = 0 ∧ w.handleFrees = 0 ∧ w.peerFrees = 0
  | .Closing => w.closeCalls = 1 ∧ w.handleFrees = 0 ∧ w.peerFrees = 0
  | .Closed => w.closeCalls = 1 ∧ w.handleFrees = 1 ∧
      w.peerFrees = (if w.data.isSome then 1 else 0)

/-- A connection from accept to teardown: a request, a spurious empty read,
the end of the stream, the completion of the close. -/
def sampleEvents : List Event :=
  [Event.ofPayload 16 (bytes "12345\n"), .read 16 0 [], .read 16 UV_EOF [], .closeDone]

/-- An accepted connection on which nothing has been read yet. -/
def activeWorld : World :=
  { state := .Active, data := some { sendbuf_end := 0 }, stderr := [],
    stdout := [.peerConnected], bufAllocs := 0, bufFrees := 0, closeCalls := 0,
    handleFrees := 0, peerFrees := 0 }

/-- A handle whose accept handshake failed: close requested, no peer state. -/
def refusedWorld : World :=
  { state := .Closing, data := none, stderr := [], stdout := [], bufAllocs := 0,
    bufFrees := 0, closeCalls := 1, handleFrees := 0, peerFrees := 0 }

/-- A block of 16 bytes that starts with the given payload. -/
def sampleBuf (payload : List Nat) : uv_buf_t :=
  { base := (payload ++ List.replicate 16 0).take 16, len := 16 }

/-- The number a run of ASCII digits denotes in base 10. -/
def decimalValue (ds : List Nat) : Nat :=
  Nat.ofDigits 10 (ds.reverse.map fun c => c - 48)

/-- The leading run of ASCII digits of a byte sequence. -/
def leadingDigits (s : List Nat) : List Nat := s.takeWhile isdigit

/-- The unreduced accumulator update `number * 10 + (c - '0')` folded over a
run of bytes. -/
def foldExact (number : Nat) (ds : List Nat) : Nat :=
  ds.foldl (fun acc c => acc * 10 + (c - 48)) number

/-- The accumulator update of the loop, reduced modulo `2 ^ 64` at every
step, folded over a run of bytes. -/
def foldWrap (number : Nat) (ds : List Nat) : Nat :=
  ds.foldl (fun acc c => (acc * 10 + (c - 48)) % 2 ^ 64) number

/-! ## The parse loop -/

theorem foldExact_eq_decimalValue (ds : List Nat) : foldExact 0 ds = decimalValue ds := by
  induction ds using List.reverseRecOn with
  | nil => simp [foldExact, decimalValue]
  | append_singleton init c ih =>
    unfold foldExact decimalValue at *
    simp only [List.foldl_append, List.foldl_cons, List.foldl_nil, List.reverse_append,
      List.reverse_cons, List.reverse_nil, List.nil_append, List.singleton_append,
      List.map_cons, Nat.ofDigits_cons]
    rw [ih]
    ring

theorem foldWrap_mod (ds : List Nat) (n m : Nat) (h : n % 2 ^ 64 = m % 2 ^ 64) :
    foldWrap n ds % 2 ^ 64 = foldExact m ds % 2 ^ 64 := by
  induction ds generalizing n m with
  | nil => simpa [foldWrap, foldExact] using h
  | cons c t ih =>
    simp only [foldWrap, foldExact, List.foldl_cons] at *
    apply ih
    rw [Nat.mod_mod]
    exact Nat.ModEq.add_right _ (Nat.ModEq.mul_right 10 h)

theorem foldWrap_lt (ds : List Nat) (n : Nat) (h : n < 2 ^ 64) : foldWrap n ds < 2 ^ 64 := by
  induction ds generalizing n with
  | nil => simpa [foldWrap] using h
  | cons c t ih =>
    simp only [foldWrap, List.foldl_cons] at *
    exact ih _ (Nat.mod_lt _ (by norm_num))

theorem foldWrap_eq (ds : List Nat) : foldWrap 0 ds = decimalValue ds % 2 ^ 64 := by
  rw [← foldExact_eq_decimalValue, ← foldWrap_mod ds 0 0 rfl]
  exact (Nat.mod_eq_of_lt (foldWrap_lt ds 0 (by norm_num))).symm

theorem parse_loop_eq (base : List Nat) (nread : Nat) (hlen : nread ≤ base.length) :
    ∀ (fuel i number : Nat), i ≤ nread → nread - i < fuel →
      parse_loop base nread fuel i number =
        some (foldWrap number (leadingDigits ((base.take nread).drop i)),
              i + (leadingDigits ((base.take nread).drop i)).length) := by
  intro fuel
  induction fuel with
  | zero => intro i number _ h; omega
  | succ fuel ih =>
    intro i number hi hf
    unfold parse_loop
    by_cases hlt : i < nread
    · have hib : i < base.length := lt_of_lt_of_le hlt hlen
      have hit : i < (base.take nread).length := by
        rw [List.length_take]; omega
      have hdrop : (base.take nread).drop i = base[i] :: (base.take nread).drop (i + 1) := by
        rw [List.drop_eq_getElem_cons hit, List.getElem_take]
      rw [if_pos hlt, List.getElem?_eq_getElem hib, hdrop]
      by_cases hd : isdigit base[i] = true
      · simp only [hd, if_true, leadingDigits, List.takeWhile_cons_of_pos, List.length_cons]
        rw [ih (i + 1) _ (by omega) (by omega)]
        simp [leadingDigits, foldWrap, Nat.add_assoc, Nat.add_comm 1]
      · simp [hd, leadingDigits, foldWrap]
    · have hdrop : (base.take nread).drop i = [] := by
        apply List.drop_eq_nil_of_le
        rw [List.length_take]; omega
      rw [if_neg hlt, hdrop]
      simp [leadingDigits, foldWrap]

/-- The parse loop run on the first `nread` bytes of a block that holds at
least that many: it returns, with the wrapped fold of the leading digit run
and the length of that run. -/
theorem parse_number_eq (base : List Nat) (nread : Nat) (hlen : nread ≤ base.length) :
    parse_number base nread =
      some (foldWrap 0 (leadingDigits (base.take nread)),
            (leadingDigits (base.take nread)).length) := by
  unfold parse_number
  rw [parse_loop_eq base nread hlen (nread + 1) 0 0 (Nat.zero_le _) (by omega)]
  simp

theorem leadingDigits_append (ds t : List Nat) (hd : ∀ c ∈ ds, isdigit c = true) :
    leadingDigits (ds ++ t) = ds ++ leadingDigits t := by
  induction ds with
  | nil => rfl
  | cons c r ih =>
    have hc : isdigit c = true := hd c (List.mem_cons_self _ _)
    have hr : ∀ d ∈ r, isdigit d = true := fun d hm => hd d (List.mem_cons_of_mem _ hm)
    simp only [leadingDigits, List.cons_append, List.takeWhile_cons_of_pos hc] at *
    rw [ih hr]

theorem leadingDigits_eq_self (ds : List Nat) (hd : ∀ c ∈ ds, isdigit c = true) :
    leadingDigits ds = ds := by
  have h := leadingDigits_append ds [] hd
  simpa [leadingDigits] using h

theorem decimalValue_lt (ds : List Nat) (hd : ∀ c ∈ ds, isdigit c = true) :
    decimalValue ds < 10 ^ ds.length := by
  unfold decimalValue
  have h := Nat.ofDigits_lt_base_pow_length (b := 10)
    (l := ds.reverse.map fun c => c - 48) (by norm_num) (by
      intro x hx
      simp only [List.mem_map, List.mem_reverse] at hx
      obtain ⟨c, hc, rfl⟩ := hx
      have := hd c hc
      simp only [isdigit, Bool.and_eq_true, decide_eq_true_eq] at this
      omega)
  simpa using h

/-- C4: a payload of n ASCII digits, n at most 19, is parsed to exactly the
number the digits denote in base 10, with n digits consumed; the exact
(unreduced) accumulator stays below 2^64 after every iteration, so the
64-bit accumulator never wraps. -/
theorem parse_number_digits_exact (ds junk : List Nat)
    (hd : ∀ c ∈ ds, isdigit c = true) (hn : ds.length ≤ 19) :
    parse_number (ds ++ junk) ds.length = some (decimalValue ds, ds.length) ∧
    (∀ k, foldExact 0 (ds.take k) < 2 ^ 64) ∧
    (∀ k, foldWrap 0 (ds.take k) = foldExact 0 (ds.take k)) := by
  have hsmall : ∀ k, foldExact 0 (ds.take k) < 2 ^ 64 := by
    intro k
    rw [foldExact_eq_decimalValue]
    have h1 := decimalValue_lt (ds.take k) (fun c hc => hd c (List.mem_of_mem_take hc))
    have h2 : (ds.take k).length ≤ 19 := by
      rw [List.length_take]; omega
    calc decimalValue (ds.take k) < 10 ^ (ds.take k).length := h1
      _ ≤ 10 ^ 19 := Nat.pow_le_pow_right (by norm_num) h2
      _ < 2 ^ 64 := by norm_num
  have hwrap : ∀ k, foldWrap 0 (ds.take k) = foldExact 0 (ds.take k) := by
    intro k
    rw [foldWrap_eq, foldExact_eq_decimalValue]
    apply Nat.mod_eq_of_lt
    rw [← foldExact_eq_decimalValue]
    exact hsmall k
  refine ⟨?_, hsmall, hwrap⟩
  rw [parse_number_eq _ _ (by simp), List.take_left' rfl, leadingDigits_eq_self ds hd]
  have h := hwrap ds.length
  rw [List.take_length, foldExact_eq_decimalValue] at h
  rw [h]

/-- Witness for C4: the nineteen nines, the largest payload the claim covers. -/
theorem parse_number_digits_exact_witness :
    parse_number (List.replicate 19 57) 19 = some (9999999999999999999, 19) := by
  have h := (parse_number_digits_exact (List.replicate 19 57) [] (by decide) (by decide)).1
  simpa [decimalValue, Nat.ofDigits] using h

/-- C5: on a payload made of k ASCII digits, one non-digit byte and any
further bytes, the loop consumes exactly the k digits and returns the value
it returns on the k digits alone, whatever follows the non-digit. -/
theorem parse_number_stops_at_nondigit (ds rest : List Nat) (x nread : Nat)
    (hd : ∀ c ∈ ds, isdigit c = true) (hx : isdigit x = false)
    (h1 : ds.length < nread) (h2 : nread ≤ (ds ++ x :: rest).length) :
    parse_number (ds ++ x :: rest) nread = parse_number ds ds.length ∧
    parse_number (ds ++ x :: rest) nread = some (decimalValue ds % 2 ^ 64, ds.length) := by
  have htake : (ds ++ x :: rest).take nread
      = ds ++ x :: rest.take (nread - ds.length - 1) := by
    rw [List.take_append_eq_append_take, List.take_of_length_le (le_of_lt h1)]
    obtain ⟨m, hm⟩ : ∃ m, nread - ds.length = m + 1 := ⟨nread - ds.length - 1, by omega⟩
    rw [hm, List.take_succ_cons]
    simp
  have hfull : parse_number (ds ++ x :: rest) nread
      = some (decimalValue ds % 2 ^ 64, ds.length) := by
    rw [parse_number_eq _ _ h2, htake, leadingDigits_append ds _ hd]
    simp [leadingDigits, List.takeWhile_cons_of_neg, hx, foldWrap_eq]
  have halone : parse_number ds ds.length = some (decimalValue ds % 2 ^ 64, ds.length) := by
    rw [parse_number_eq _ _ le_rfl, List.take_length, leadingDigits_eq_self ds hd, foldWrap_eq]
  exact ⟨hfull.trans halone.symm, hfull⟩

/-- Witness for C5: in "42x7" the digit after the "x" is not consumed. -/
theorem parse_number_stops_at_nondigit_witness :
    parse_number (bytes "42x7") 4 = some (42, 2) := by
  have h := (parse_number_stops_at_nondigit (bytes "42") (bytes "7") 120 4
    (by decide) (by decide) (by decide) (by decide)).2
  simpa [bytes, decimalValue, Nat.ofDigits] using h

/-- C6: the loop returns value 0 with 0 digits consumed exactly when the
payload is empty or its first byte is not an ASCII digit. -/
theorem parse_number_zero_iff (s junk : List Nat) :
    parse_number (s ++ junk) s.length = some (0, 0) ↔
      (s = [] ∨ ∃ c t, s = c :: t ∧ isdigit c = false) := by
  rw [parse_number_eq _ _ (by simp), List.take_left' rfl]
  cases s with
  | nil => simp [leadingDigits, foldWrap]
  | cons c t =>
    by_cases hc : isdigit c = true
    · simp [leadingDigits, List.takeWhile_cons_of_pos hc, hc]
    · simp [leadingDigits, List.takeWhile_cons_of_neg hc, hc, foldWrap]

/-- C10: for every payload the loop returns, with the base-10 value of the
whole leading digit run reduced modulo 2^64 and the length of that run as
the number of digits consumed: it neither fails nor stops early, however
long the run is. -/
theorem parse_number_wraps (s junk : List Nat) :
    parse_number (s ++ junk) s.length =
      some (decimalValue (leadingDigits s) % 2 ^ 64, (leadingDigits s).length) := by
  rw [parse_number_eq _ _ (by simp), List.take_left' rfl, foldWrap_eq]

/-! ## The read-completion callback -/

theorem on_peer_read_neg (w : World) (nread : Int) (buf : uv_buf_t) (h : nread < 0) :
    on_peer_read w nread buf =
      some { state := .Closing, data := w.data,
             stderr := w.stderr ++ (if nread ≠ UV_EOF then [.readError nread] else []),
             stdout := w.stdout, bufAllocs := w.bufAllocs, bufFrees := w.bufFrees + 1,
             closeCalls := w.closeCalls + 1, handleFrees := w.handleFrees,
             peerFrees := w.peerFrees } := by
  simp only [on_peer_read, if_pos h]
  by_cases he : nread = UV_EOF
  · simp [he, uv_close]
  · simp [he, uv_close]

theorem on_peer_read_zero (w : World) (buf : uv_buf_t) :
    on_peer_read w 0 buf = some { w with bufFrees := w.bufFrees + 1 } := by
  simp [on_peer_read]

theorem on_peer_read_pos (w : World) (nread : Int) (buf : uv_buf_t) (h : 0 < nread)
    (hlen : nread ≤ buf.len) (hblock : nread ≤ buf.base.length) :
    on_peer_read w nread buf =
      some { w with
        stdout := w.stdout ++ [.gotBytes nread,
          .num (decimalValue (leadingDigits (buf.base.take nread.toNat)) % 2 ^ 64)],
        bufFrees := w.bufFrees + 1 } := by
  have hn : nread.toNat ≤ buf.base.length := by omega
  unfold on_peer_read
  rw [parse_number_eq _ _ hn, foldWrap_eq]
  have h1 : ¬ nread < 0 := by omega
  have h2 : ¬ nread = 0 := by omega
  simp [h1, h2, hlen]

theorem on_peer_read_pos_some (w w1 : World) (nread : Int) (buf : uv_buf_t) (h : 0 < nread)
    (hw : on_peer_read w nread buf = some w1) :
    ∃ v, w1 = { w with stdout := w.stdout ++ [.gotBytes nread, .num v],
                       bufFrees := w.bufFrees + 1 } := by
  have h1 : ¬ nread < 0 := by omega
  have h2 : ¬ nread = 0 := by omega
  simp only [on_peer_read, if_neg h1, if_neg h2] at hw
  split at hw
  · cases hp : parse_number buf.base nread.toNat with
    | none => simp [hp] at hw
    | some r =>
      simp only [hp, Option.map_some', Option.some.injEq] at hw
      exact ⟨r.1, hw.symm⟩
  · simp at hw

theorem on_peer_read_none (w : World) (nread : Int) (buf : uv_buf_t)
    (h : on_peer_read w nread buf = none) :
    0 < nread ∧ ((buf.len : Int) < nread ∨ (buf.base.length : Int) < nread) := by
  by_contra hcon
  rcases lt_trichotomy nread 0 with hneg | hz | hpos
  · rw [on_peer_read_neg w nread buf hneg] at h
    exact Option.noConfusion h
  · subst hz
    rw [on_peer_read_zero] at h
    exact Option.noConfusion h
  · by_cases hlen : nread ≤ buf.len
    · by_cases hblock : nread ≤ buf.base.length
      · rw [on_peer_read_pos w nread buf hpos hlen hblock] at h
        exact Option.noConfusion h
      · exact hcon ⟨hpos, Or.inr (by omega)⟩
    · exact hcon ⟨hpos, Or.inl (by omega)⟩

/-- C1: for a byte count delivered to `on_peer_read` on an Active handle,
the call closes the handle (Active to Closing, one `uv_close`) exactly when
the count is negative, writes a "Read error" line exactly when the count is
negative and not `UV_EOF`, and on a zero count leaves everything as it was
apart from releasing the buffer. Nothing is written to standard output
unless the count is positive, so the end of the stream closes the handle
without a line on either stream; on a negative count the resulting state is
the old one with the handle closing, one more `uv_close`, one more release,
and the "Read error" line, if any, as the only output. The call fails to
return only on a positive count that exceeds the buffer, where nothing is
closed or logged. -/
theorem on_peer_read_classifies (w : World) (nread : Int) (buf : uv_buf_t)
    (hA : w.state = .Active) :
    (on_peer_read w nread buf = none →
      0 < nread ∧ ((buf.len : Int) < nread ∨ (buf.base.length : Int) < nread)) ∧
    ∀ w1, on_peer_read w nread buf = some w1 →
      (w1.state = .Closing ↔ nread < 0) ∧
      (w1.state = .Active ↔ 0 ≤ nread) ∧
      (w1.closeCalls = w.closeCalls + 1 ↔ nread < 0) ∧
      (w1.closeCalls = w.closeCalls ↔ 0 ≤ nread) ∧
      (w1.stderr = w.stderr ++ [.readError nread] ↔ (nread < 0 ∧ nread ≠ UV_EOF)) ∧
      (w1.stderr = w.stderr ↔ ¬ (nread < 0 ∧ nread ≠ UV_EOF)) ∧
      (nread = 0 → w1 = { w with bufFrees := w.bufFrees + 1 }) ∧
      (w1.stdout = w.stdout ↔ nread ≤ 0) ∧
      (nread < 0 →
        w1 = { w with state := .Closing,
                      stderr := w.stderr ++ (if nread ≠ UV_EOF then [.readError nread] else []),
                      bufFrees := w.bufFrees + 1,
                      closeCalls := w.closeCalls + 1 }) ∧
      (0 < nread →
        ∃ v, w1 = { w with stdout := w.stdout ++ [.gotBytes nread, .num v],
                           bufFrees := w.bufFrees + 1 }) := by
  refine ⟨on_peer_read_none w nread buf, ?_⟩
  intro w1 hw
  rcases lt_trichotomy nread 0 with hneg | hz | hpos
  · rw [on_peer_read_neg w nread buf hneg] at hw
    cases hw
    have h0 : ¬ (0 ≤ nread) := by omega
    have h1 : nread ≠ 0 := by omega
    have h2 : ¬ (0 < nread) := by omega
    have h3 : nread ≤ 0 := by omega
    refine ⟨?_, ?_, ?_, ?_, ?_, ?_, ?_, ?_, ?_, ?_⟩
    · simp [hneg]
    · simp [h0]
    · simp [hneg]
    · simp [h0]
    · by_cases he : nread = UV_EOF
      · simp only [if_neg (not_not.mpr he)]
        simp [he]
      · simp [hneg, he]
    · by_cases he : nread = UV_EOF
      · simp only [if_neg (not_not.mpr he)]
        simp [he]
      · simp [hneg, he]
    · intro h; exact absurd h h1
    · simp [h3]
    · intro _; rfl
    · intro h; exact absurd h h2
  · subst hz
    rw [on_peer_read_zero] at hw
    cases hw
    simp [hA]
  · obtain ⟨v, rfl⟩ := on_peer_read_pos_some w w1 nread buf hpos hw
    have h0 : ¬ nread < 0 := by omega
    have h1 : nread ≠ 0 := by omega
    have h3 : ¬ nread ≤ 0 := by omega
    refine ⟨?_, ?_, ?_, ?_, ?_, ?_, ?_, ?_, ?_, ?_⟩
    · simp [hA, h0]
    · simp [hA, le_of_lt hpos]
    · simp [h0]
    · simp [le_of_lt hpos]
    · simp [h0]
    · simp [h0]
    · intro h; exact absurd h h1
    · simp [h3]
    · intro h; exact absurd h h0
    · intro _; exact ⟨v, rfl⟩

/-- Witness for C1: a connection reset (`UV_ECONNRESET`, -104) closes the
handle and is logged on standard error only; the end of the stream closes
it and logs nothing on either stream. -/
theorem on_peer_read_classifies_witness :
    activeWorld.state = .Active ∧
    (∃ w1, on_peer_read activeWorld (-104) (sampleBuf []) = some w1 ∧
      w1.state = .Closing ∧ w1.stderr = activeWorld.stderr ++ [.readError (-104)] ∧
      w1.stdout = activeWorld.stdout) ∧
    (∃ w2, on_peer_read activeWorld UV_EOF (sampleBuf []) = some w2 ∧
      w2.state = .Closing ∧ w2.stderr = activeWorld.stderr ∧
      w2.stdout = activeWorld.stdout) :=
  ⟨rfl,
   ⟨{ activeWorld with state := .Closing, stderr := [.readError (-104)],
                       bufFrees := 1, closeCalls := 1 }, by decide,
    ((on_peer_read_classifies activeWorld (-104) (sampleBuf []) rfl).2 _ (by decide)).1.mpr
      (by decide),
    ((on_peer_read_classifies activeWorld (-104) (sampleBuf []) rfl).2 _
      (by decide)).2.2.2.2.1.mpr (by decide),
    ((on_peer_read_classifies activeWorld (-104) (sampleBuf []) rfl).2 _
      (by decide)).2.2.2.2.2.2.2.1.mpr (by decide)⟩,
   ⟨{ activeWorld with state := .Closing, bufFrees := 1, closeCalls := 1 }, by decide,
    ((on_peer_read_classifies activeWorld UV_EOF (sampleBuf []) rfl).2 _ (by decide)).1.mpr
      (by decide),
    ((on_peer_read_classifies activeWorld UV_EOF (sampleBuf []) rfl).2 _
      (by decide)).2.2.2.2.2.1.mpr (by decide),
    ((on_peer_read_classifies activeWorld UV_EOF (sampleBuf []) rfl).2 _
      (by decide)).2.2.2.2.2.2.2.1.mpr (by decide)⟩⟩

/-- C7: a read of N > 0 bytes into a buffer of at least N bytes returns, having
written "Got N bytes" and "Num V" and released the buffer, where V is what
the loop returns on the first N bytes alone; nothing else changes (the
handle stays as it was, no close is requested, nothing goes to standard
error), and a buffer that agrees on the first N bytes gives the same result. -/
theorem on_peer_read_logs_count_and_value (w : World) (N : Nat) (buf : uv_buf_t)
    (hN : 0 < N) (hlen : N ≤ buf.len) (hblock : buf.len ≤ buf.base.length) :
    ∃ V k, parse_number (buf.base.take N) N = some (V, k) ∧
      on_peer_read w N buf =
        some { w with stdout := w.stdout ++ [.gotBytes N, .num V],
                      bufFrees := w.bufFrees + 1 } ∧
      (∀ w1, on_peer_read w N buf = some w1 →
        w1.state = w.state ∧ w1.closeCalls = w.closeCalls ∧ w1.stderr = w.stderr) ∧
      (∀ buf2 : uv_buf_t, N ≤ buf2.len → buf2.len ≤ buf2.base.length →
        buf2.base.take N = buf.base.take N →
        on_peer_read w N buf2 = on_peer_read w N buf) := by
  have hNb : N ≤ buf.base.length := le_trans hlen hblock
  have hpos : ∀ b : uv_buf_t, N ≤ b.len → b.len ≤ b.base.length →
      on_peer_read w N b =
        some { w with
          stdout := w.stdout ++ [.gotBytes N,
            .num (decimalValue (leadingDigits (b.base.take N)) % 2 ^ 64)],
          bufFrees := w.bufFrees + 1 } := by
    intro b h1 h2
    have h := on_peer_read_pos w N b (by exact_mod_cast hN) (by exact_mod_cast h1)
      (by exact_mod_cast le_trans h1 h2)
    simpa using h
  refine ⟨decimalValue (leadingDigits (buf.base.take N)) % 2 ^ 64,
    (leadingDigits (buf.base.take N)).length, ?_, hpos buf hlen hblock, ?_, ?_⟩
  · have h := parse_number_eq (buf.base.take N) N (by rw [List.length_take]; omega)
    rw [List.take_take, Nat.min_self, foldWrap_eq] at h
    exact h
  · intro w1 hw
    rw [hpos buf hlen hblock] at hw
    cases hw
    exact ⟨rfl, rfl, rfl⟩
  · intro buf2 h1 h2 h3
    rw [hpos buf hlen hblock, hpos buf2 h1 h2, h3]

/-- Witness for C7: the payloads "12345\n" (6 bytes, value 12345) and "abc"
(3 bytes, value 0), with the text of the two lines printed for the first. -/
theorem on_peer_read_logs_count_and_value_witness :
    on_peer_read activeWorld 6 (sampleBuf (bytes "12345\n")) =
      some { activeWorld with stdout := activeWorld.stdout ++ [.gotBytes 6, .num 12345],
                              bufFrees := 1 } ∧
    on_peer_read activeWorld 3 (sampleBuf (bytes "abc")) =
      some { activeWorld with stdout := activeWorld.stdout ++ [.gotBytes 3, .num 0],
                              bufFrees := 1 } ∧
    [LogLine.gotBytes 6, LogLine.num 12345].map LogLine.text =
      [some "Got 6 bytes\n", some "Num 12345\n"] := by
  obtain ⟨V, k, hp, hr, -, -⟩ := on_peer_read_logs_count_and_value activeWorld 6
    (sampleBuf (bytes "12345\n")) (by decide) (by decide) (by decide)
  obtain ⟨V2, k2, hp2, hr2, -, -⟩ := on_peer_read_logs_count_and_value activeWorld 3
    (sampleBuf (bytes "abc")) (by decide) (by decide) (by decide)
  have e1 : parse_number ((sampleBuf (bytes "12345\n")).base.take 6) 6 = some (12345, 5) := by
    decide
  have e2 : parse_number ((sampleBuf (bytes "abc")).base.take 3) 3 = some (0, 0) := by
    decide
  rw [e1] at hp
  rw [e2] at hp2
  cases hp
  cases hp2
  exact ⟨hr, hr2, by decide⟩


/-! ## The event loop -/

theorem mayStepTo_self (a : ConnState) : a.mayStepTo a = true := by
  cases a <;> rfl

theorem on_peer_read_frees (v v1 : World) (nread : Int) (buf : uv_buf_t)
    (h : on_peer_read v nread buf = some v1) :
    v1.bufFrees = v.bufFrees + 1 ∧ v1.bufAllocs = v.bufAllocs := by
  rcases lt_trichotomy nread 0 with hneg | hz | hpos
  · rw [on_peer_read_neg v nread buf hneg] at h
    cases h
    exact ⟨rfl, rfl⟩
  · subst hz
    rw [on_peer_read_zero] at h
    cases h
    exact ⟨rfl, rfl⟩
  · obtain ⟨x, rfl⟩ := on_peer_read_pos_some v v1 nread buf hpos h
    exact ⟨rfl, rfl⟩

theorem on_peer_read_some (v : World) (nread : Int) (buf : uv_buf_t)
    (hlen : nread ≤ buf.len) (hblock : buf.len ≤ buf.base.length) :
    ∃ v1, on_peer_read v nread buf = some v1 := by
  cases h : on_peer_read v nread buf with
  | some v1 => exact ⟨v1, rfl⟩
  | none =>
    have := on_peer_read_none v nread buf h
    omega

theorem on_client_closed_eq (w : World) :
    on_client_closed w =
      { w with state := .Closed, handleFrees := w.handleFrees + 1,
               peerFrees := w.peerFrees + (if w.data.isSome then 1 else 0) } := by
  obtain ⟨st, data, err, out, ba, bf, cc, hf, pf⟩ := w
  cases data <;> rfl

theorem dispatch_step (w : World) (e : Event) (hfit : e.fits = true) :
    ∃ w1, dispatch w e = some w1 ∧ w1.data = w.data ∧
      w.state.mayStepTo w1.state = true ∧
      w1.bufAllocs + w.bufFrees = w.bufAllocs + w1.bufFrees ∧
      (w.consistent → w1.consistent) := by
  cases e with
  | read size nread mem =>
    simp only [Event.fits, decide_eq_true_eq] at hfit
    by_cases hA : w.state = .Active
    · simp only [dispatch, if_pos hA, on_alloc_buffer]
      rcases lt_trichotomy nread 0 with hneg | hz | hpos
      · rw [on_peer_read_neg _ nread _ hneg]
        refine ⟨_, rfl, rfl, by rw [hA]; rfl, by simp only; omega, ?_⟩
        intro hc
        simp only [World.consistent, hA] at hc
        simp only [World.consistent]
        omega
      · subst hz
        rw [on_peer_read_zero]
        refine ⟨_, rfl, rfl, by rw [hA]; rfl, by simp only; omega, ?_⟩
        intro hc
        simp only [World.consistent, hA] at hc
        simp only [World.consistent, hA]
        exact hc
      · rw [on_peer_read_pos _ nread _ hpos hfit (by simp; omega)]
        refine ⟨_, rfl, rfl, by rw [hA]; rfl, by simp only; omega, ?_⟩
        intro hc
        simp only [World.consistent, hA] at hc
        simp only [World.consistent, hA]
        exact hc
    · simp only [dispatch, if_neg hA]
      exact ⟨w, rfl, rfl, mayStepTo_self _, rfl, id⟩
  | closeDone =>
    by_cases hC : w.state = .Closing
    · simp only [dispatch, if_pos hC]
      rw [on_client_closed_eq]
      refine ⟨_, rfl, rfl, by rw [hC]; rfl, rfl, ?_⟩
      intro hc
      simp only [World.consistent, hC] at hc
      simp only [World.consistent]
      omega
    · simp only [dispatch, if_neg hC]
      exact ⟨w, rfl, rfl, mayStepTo_self _, rfl, id⟩

theorem run_steps (evs : List Event) :
    ∀ w : World, (∀ e ∈ evs, e.fits = true) →
    ∃ w1 states, run w evs = some w1 ∧ lifecycle w evs = some states ∧
      w1.data = w.data ∧
      List.Chain' (fun a b => a.mayStepTo b = true) states ∧
      states.head? = some w.state ∧ states.getLast? = some w1.state ∧
      w1.bufAllocs + w.bufFrees = w.bufAllocs + w1.bufFrees ∧
      (w.consistent → w1.consistent) := by
  induction evs with
  | nil =>
    intro w _
    exact ⟨w, [w.state], rfl, rfl, rfl, List.chain'_singleton _, rfl, rfl, rfl, id⟩
  | cons e es ih =>
    intro w hfit
    obtain ⟨w1, hd, hdata, hstep, hbuf, hcons⟩ :=
      dispatch_step w e (hfit e (List.mem_cons_self _ _))
    obtain ⟨w2, states, hr, hl, hdata2, hchain, hhead, hlast, hbuf2, hcons2⟩ :=
      ih w1 (fun x hx => hfit x (List.mem_cons_of_mem _ hx))
    refine ⟨w2, w.state :: states, ?_, ?_, hdata2.trans hdata, ?_, rfl, ?_, by omega,
      fun h => hcons2 (hcons h)⟩
    · simp [run, hd, hr]
    · simp [lifecycle, hd, hl]
    · rw [List.chain'_cons']
      refine ⟨?_, hchain⟩
      intro y hy
      rw [hhead] at hy
      cases hy
      exact hstep
    · cases states with
      | nil => simp at hhead
      | cons a t => rw [List.getLast?_cons_cons]; exact hlast

theorem on_peer_read_state (v v1 : World) (nread : Int) (buf : uv_buf_t)
    (h : on_peer_read v nread buf = some v1) :
    v1.state = .Closing ∨ v1.state = v.state := by
  rcases lt_trichotomy nread 0 with hneg | hz | hpos
  · rw [on_peer_read_neg v nread buf hneg] at h
    cases h
    exact Or.inl rfl
  · subst hz
    rw [on_peer_read_zero] at h
    cases h
    exact Or.inr rfl
  · obtain ⟨x, rfl⟩ := on_peer_read_pos_some v v1 nread buf hpos h
    exact Or.inr rfl

theorem dispatch_closed (v v1 : World) (e : Event) (h : dispatch v e = some v1)
    (hv : v.state ≠ .Closed) (hv1 : v1.state = .Closed) :
    e = .closeDone ∧ v.state = .Closing ∧ v1 = on_client_closed v := by
  cases e with
  | read size nread mem =>
    exfalso
    by_cases hA : v.state = .Active
    · simp only [dispatch, if_pos hA] at h
      rcases on_peer_read_state _ _ _ _ h with h1 | h1
      · rw [hv1] at h1
        exact ConnState.noConfusion h1
      · rw [hv1] at h1
        simp only [on_alloc_buffer, hA] at h1
        exact ConnState.noConfusion h1
    · simp only [dispatch, if_neg hA] at h
      cases h
      exact hv hv1
  | closeDone =>
    by_cases hC : v.state = .Closing
    · simp only [dispatch, if_pos hC] at h
      cases h
      exact ⟨rfl, hC, rfl⟩
    · simp only [dispatch, if_neg hC] at h
      cases h
      exact absurd hv1 hv

theorem on_peer_connected_conn (status init_rc accept_rc getpeername_rc read_start_rc : Int)
    (w0 : World)
    (h : on_peer_connected status init_rc accept_rc getpeername_rc read_start_rc = .conn w0) :
    (accept_rc = 0 ∧ w0 = activeWorld) ∨ (accept_rc ≠ 0 ∧ w0 = refusedWorld) := by
  unfold on_peer_connected at h
  split at h
  · exact Accepted.noConfusion h
  · split at h
    · exact Accepted.noConfusion h
    · by_cases ha : accept_rc = 0
      · left
        simp only [ha, if_true] at h
        split at h
        · exact Accepted.noConfusion h
        · split at h
          · exact Accepted.noConfusion h
          · cases h
            exact ⟨ha, rfl⟩
      · right
        simp only [ha, if_false] at h
        cases h
        exact ⟨ha, rfl⟩

/-- C2: over any sequence of read events that fit their blocks, offered to
any connection, the run returns and the allocations made by
`on_alloc_buffer` are matched one for one by releases; every call of
`on_peer_read` that returns has released the buffer exactly once, whatever
the byte count, and it returns whenever the count fits the buffer. -/
theorem read_buffers_released_once (w : World) (evs : List Event)
    (hfit : ∀ e ∈ evs, e.fits = true) :
    (∃ w1, run w evs = some w1 ∧
      w1.bufAllocs + w.bufFrees = w.bufAllocs + w1.bufFrees ∧
      (w.bufAllocs = w.bufFrees → w1.bufAllocs = w1.bufFrees)) ∧
    (∀ (v v1 : World) (nread : Int) (buf : uv_buf_t), on_peer_read v nread buf = some v1 →
      v1.bufFrees = v.bufFrees + 1 ∧ v1.bufAllocs = v.bufAllocs) ∧
    (∀ (v : World) (nread : Int) (buf : uv_buf_t), nread ≤ buf.len →
      buf.len ≤ buf.base.length → ∃ v1, on_peer_read v nread buf = some v1) ∧
    (∀ (v : World) (size : Nat),
      (on_alloc_buffer v size).1.bufAllocs = v.bufAllocs + 1 ∧
      (on_alloc_buffer v size).1.bufFrees = v.bufFrees ∧
      (on_alloc_buffer v size).2.len = size ∧
      (on_alloc_buffer v size).2.base.length = size) := by
  refine ⟨?_, on_peer_read_frees, on_peer_read_some, ?_⟩
  · obtain ⟨w1, states, hr, -, -, -, -, -, hbuf, -⟩ := run_steps evs w hfit
    exact ⟨w1, hr, hbuf, fun h => by omega⟩
  · intro v size
    simp [on_alloc_buffer]

/-- Witness for C2: three reads (a request, an empty read, the end of the
stream) and the close: three blocks allocated, three released. -/
theorem read_buffers_released_once_witness :
    (∀ e ∈ sampleEvents, e.fits = true) ∧
    ∃ w1, run activeWorld sampleEvents = some w1 ∧ w1.bufAllocs = 3 ∧ w1.bufFrees = 3 := by
  have hfit : ∀ e ∈ sampleEvents, e.fits = true := by decide
  obtain ⟨w1, hr, -, -⟩ := (read_buffers_released_once activeWorld sampleEvents hfit).1
  have hrun : run activeWorld sampleEvents = some
      { state := .Closed, data := some { sendbuf_end := 0 }, stderr := [],
        stdout := [.peerConnected, .gotBytes 6, .num 12345], bufAllocs := 3, bufFrees := 3,
        closeCalls := 1, handleFrees := 1, peerFrees := 1 } := by decide
  rw [hrun] at hr
  cases hr
  exact ⟨hfit, _, hrun, rfl, rfl⟩

/-- C3: for a handle created by `on_peer_connected` and any sequence of
events offered to the loop, reads being dispatched only to a handle that is
not closing: the run returns; the handle starts Active with a peer state
attached when the handshake succeeded and Closing with a null data field
when it failed; from one observation to the next the state stays or moves
Active to Closing or Closing to Closed; `uv_close` is called at most once;
Closed is entered only by `on_client_closed`, which frees the handle once
and the peer state once if one is attached and not at all otherwise. -/
theorem connection_lifecycle (status init_rc accept_rc getpeername_rc read_start_rc : Int)
    (w0 : World)
    (hconn : on_peer_connected status init_rc accept_rc getpeername_rc read_start_rc
      = .conn w0)
    (evs : List Event) (hfit : ∀ e ∈ evs, e.fits = true) :
    w0.state = (if accept_rc = 0 then .Active else .Closing) ∧
    (w0.data.isSome = true ↔ accept_rc = 0) ∧
    (∃ w states, run w0 evs = some w ∧ lifecycle w0 evs = some states ∧
      states.head? = some w0.state ∧ states.getLast? = some w.state ∧
      List.Chain' (fun a b => a.mayStepTo b = true) states ∧
      w.closeCalls ≤ 1 ∧ (w.closeCalls = 0 ↔ w.state = .Active) ∧
      w.handleFrees = (if w.state = .Closed then 1 else 0) ∧
      w.peerFrees = (if w.state = .Closed ∧ accept_rc = 0 then 1 else 0)) ∧
    (∀ (v v1 : World) (e : Event), dispatch v e = some v1 → v.state ≠ .Closed →
      v1.state = .Closed → e = .closeDone ∧ v.state = .Closing ∧ v1 = on_client_closed v) ∧
    (∀ v : World, (on_client_closed v).state = .Closed ∧
      (on_client_closed v).handleFrees = v.handleFrees + 1 ∧
      (on_client_closed v).peerFrees = v.peerFrees + (if v.data.isSome then 1 else 0)) := by
  have hw0 := on_peer_connected_conn _ _ _ _ _ w0 hconn
  have hcons : w0.consistent := by
    rcases hw0 with ⟨-, rfl⟩ | ⟨-, rfl⟩ <;> simp [World.consistent, activeWorld, refusedWorld]
  have hstate : w0.state = (if accept_rc = 0 then .Active else .Closing) := by
    rcases hw0 with ⟨ha, rfl⟩ | ⟨ha, rfl⟩ <;> simp [ha, activeWorld, refusedWorld]
  have hdata : (w0.data.isSome = true ↔ accept_rc = 0) := by
    rcases hw0 with ⟨ha, rfl⟩ | ⟨ha, rfl⟩ <;> simp [ha, activeWorld, refusedWorld]
  refine ⟨hstate, hdata, ?_, fun v v1 e h hv hv1 => dispatch_closed v v1 e h hv hv1, ?_⟩
  · obtain ⟨w, states, hr, hl, hd, hchain, hhead, hlast, -, hc⟩ := run_steps evs w0 hfit
    have hcw := hc hcons
    refine ⟨w, states, hr, hl, hhead, hlast, hchain, ?_⟩
    have hd2 : (w.data.isSome = true ↔ accept_rc = 0) := by rw [hd]; exact hdata
    unfold World.consistent at hcw
    cases hs : w.state <;> rw [hs] at hcw <;> simp only at hcw
    · simp [hcw]
    · simp [hcw]
    · by_cases ha : accept_rc = 0
      · have := hd2.mpr ha
        simp [hcw, ha, this]
      · have : ¬ (w.data.isSome = true) := fun h => ha (hd2.mp h)
        simp [hcw, ha, this]
  · intro v
    rw [on_client_closed_eq]
    exact ⟨rfl, rfl, rfl⟩

/-- Witness for C3: an accepted connection through a request, an empty read,
the end of the stream and the close completion; and a handle whose
handshake failed, through its close completion. -/
theorem connection_lifecycle_witness :
    on_peer_connected 0 0 0 0 0 = .conn activeWorld ∧
    (∀ e ∈ sampleEvents, e.fits = true) ∧
    lifecycle activeWorld sampleEvents =
      some [.Active, .Active, .Active, .Closing, .Closed] ∧
    (∃ w, run activeWorld sampleEvents = some w ∧ w.closeCalls ≤ 1 ∧
      w.handleFrees = 1 ∧ w.peerFrees = 1) ∧
    on_peer_connected 0 0 (-1) 0 0 = .conn refusedWorld ∧
    lifecycle refusedWorld [.closeDone] = some [.Closing, .Closed] ∧
    (∃ w, run refusedWorld [.closeDone] = some w ∧ w.closeCalls ≤ 1 ∧
      w.handleFrees = 1 ∧ w.peerFrees = 0) := by
  have hconn : on_peer_connected 0 0 0 0 0 = .conn activeWorld := by decide
  have hfit : ∀ e ∈ sampleEvents, e.fits = true := by decide
  obtain ⟨-, -, ⟨w, states, hr, -, -, hlast, -, hcc, -, hhf, hpf⟩, -, -⟩ :=
    connection_lifecycle 0 0 0 0 0 activeWorld hconn sampleEvents hfit
  have hrun : run activeWorld sampleEvents = some
      { state := .Closed, data := some { sendbuf_end := 0 }, stderr := [],
        stdout := [.peerConnected, .gotBytes 6, .num 12345], bufAllocs := 3, bufFrees := 3,
        closeCalls := 1, handleFrees := 1, peerFrees := 1 } := by decide
  rw [hrun] at hr
  cases hr
  have hconn2 : on_peer_connected 0 0 (-1) 0 0 = .conn refusedWorld := by decide
  obtain ⟨-, -, ⟨v, states2, hr2, -, -, -, -, hcc2, -, hhf2, hpf2⟩, -, -⟩ :=
    connection_lifecycle 0 0 (-1) 0 0 refusedWorld hconn2 [.closeDone] (by decide)
  have hrun2 : run refusedWorld [.closeDone] = some
      { refusedWorld with state := .Closed, handleFrees := 1 } := by decide
  rw [hrun2] at hr2
  cases hr2
  exact ⟨hconn, hfit, by decide, ⟨_, hrun, hcc, hhf, hpf⟩, hconn2, by decide,
    ⟨_, hrun2, hcc2, hhf2, hpf2⟩⟩

theorem dispatch_payload (w : World) (hA : w.state = .Active) (size : Nat)
    (payload : List Nat) (hpos : 0 < payload.length) (hfit : payload.length ≤ size) :
    dispatch w (Event.ofPayload size payload) =
      some { w with
        stdout := w.stdout ++ [.gotBytes payload.length,
          .num (decimalValue (leadingDigits payload) % 2 ^ 64)],
        bufAllocs := w.bufAllocs + 1, bufFrees := w.bufFrees + 1 } := by
  simp only [Event.ofPayload, dispatch, if_pos hA, on_alloc_buffer]
  rw [on_peer_read_pos _ _ _ (by exact_mod_cast hpos) (by exact_mod_cast hfit)
    (by simp; omega)]
  have htake : List.take payload.length
      (List.take size (payload ++ List.replicate size 0)) = payload := by
    rw [List.take_take, Nat.min_eq_left hfit, List.take_left' rfl]
  simp [htake]

/-- C8 as the code has it: a connection on which "7\n" and then "42" arrive
logs a number for each of the two reads; the second read is parsed like
the first. -/
theorem later_read_is_parsed :
    (run activeWorld [Event.ofPayload 16 (bytes "7\n")]).map World.stdout =
      some [.peerConnected, .gotBytes 2, .num 7] ∧
    (run activeWorld [Event.ofPayload 16 (bytes "7\n"),
        Event.ofPayload 16 (bytes "42")]).map World.stdout =
      some [.peerConnected, .gotBytes 2, .num 7, .gotBytes 2, .num 42] := by
  decide

/-- C8 amended: every read event with a non-empty payload on an Active
connection, the first as well as any later one, is parsed on its own; after
any sequence of such reads the output holds, for each read in order, its
byte count and the value of the leading digit run of its own payload
(modulo 2^64), and the connection is still Active. -/
theorem every_read_is_parsed (reads : List (Nat × List Nat)) :
    ∀ w : World, w.state = .Active →
    (∀ r ∈ reads, 0 < r.2.length ∧ r.2.length ≤ r.1) →
    ∃ w1, run w (reads.map fun r => Event.ofPayload r.1 r.2) = some w1 ∧
      w1.state = .Active ∧
      w1.stdout = w.stdout ++ reads.flatMap fun r =>
        [LogLine.gotBytes r.2.length, LogLine.num (decimalValue (leadingDigits r.2) % 2 ^ 64)] := by
  induction reads with
  | nil =>
    intro w hA _
    exact ⟨w, rfl, hA, by simp⟩
  | cons r rs ih =>
    intro w hA h
    obtain ⟨hpos, hfit⟩ := h r (List.mem_cons_self _ _)
    obtain ⟨w1, hr, hs, hout⟩ := ih _
      (show ({ w with
        stdout := w.stdout ++ [.gotBytes r.2.length,
          .num (decimalValue (leadingDigits r.2) % 2 ^ 64)],
        bufAllocs := w.bufAllocs + 1, bufFrees := w.bufFrees + 1 } : World).state = .Active
        from hA)
      (fun x hx => h x (List.mem_cons_of_mem _ hx))
    refine ⟨w1, ?_, hs, ?_⟩
    · simp only [List.map_cons, run, dispatch_payload w hA r.1 r.2 hpos hfit, Option.some_bind]
      exact hr
    · rw [hout]
      simp [List.flatMap_cons]

/-- Witness for the amended C8: two requests on one connection. -/
theorem every_read_is_parsed_witness :
    ∃ w1, run activeWorld [Event.ofPayload 16 (bytes "7\n"), Event.ofPayload 16 (bytes "42")]
        = some w1 ∧
      w1.stdout = [.peerConnected, .gotBytes 2, .num 7, .gotBytes 2, .num 42] := by
  obtain ⟨w1, hr, -, hout⟩ := every_read_is_parsed [(16, bytes "7\n"), (16, bytes "42")]
    activeWorld rfl (by decide)
  refine ⟨w1, hr, ?_⟩
  rw [hout]
  decide

/-! ## The listen port -/

end UvIsprimeServer
